import Mathlib

/-!
Verification of the LinkedIn-Queens constraint model (src/solver.py and
src/visuals.py).  The repository builds a declarative constraint model (the
three rule families: all-different columns, consecutive-row distance > 1,
exactly one queen per region) and delegates the search itself to an external
constraint engine.  The constraint model, region derivation, input validation
and the result-assembly loop are embedded here directly from the source; the
external engine's enumeration is modelled from the spec as the lexicographic
enumeration of all assignments, and the spec's depth-first search engine is
modelled separately and proved equivalent to the declarative semantics.
-/

/-- The empty string, used as the out-of-range default for grid lookups. -/
def emptyLabel : String := ""

/-- A board grid: each cell holds a region label (src stores a list of list of
str). -/
abbrev Grid := List (List String)

/-- Concatenation of the images of a list under a list-valued function; the
iteration pattern underlying the generate-and-test loops modelled below. -/
def appendMap {α β : Type} : List α → (α → List β) → List β
  | [], _ => []
  | a :: l, f => f a ++ appendMap l f

/-- Embedding of get_puzzle_size (src/solver.py line 7), matrix branch: the
number of rows. -/
def get_puzzle_size (puzzle : Grid) : Nat := puzzle.length

/-- Cells of one row, labelled with their (row, col) coordinates, columns
counted from c0; inner loop of get_puzzle_regions (src/solver.py line 17). -/
def rowCells (r : Nat) : Nat → List String → List (String × (Nat × Nat))
  | _, [] => []
  | c0, v :: vs => (v, (r, c0)) :: rowCells r (c0 + 1) vs

/-- Cells of the rows of a grid in row-major order, rows counted from r0;
outer loop of get_puzzle_regions (src/solver.py line 16). -/
def cellsOfAux : Nat → Grid → List (String × (Nat × Nat))
  | _, [] => []
  | r0, row :: rest => rowCells r0 0 row ++ cellsOfAux (r0 + 1) rest

/-- All cells of a grid with their labels, in row-major order. -/
def cellsOf (g : Grid) : List (String × (Nat × Nat)) := cellsOfAux 0 g

/-- One step of the dict update in get_puzzle_regions (src/solver.py lines
18-20): append the cell to the entry of its label, creating the entry at the
end when the label is new (Python dicts preserve insertion order). -/
def addCell : List (String × List (Nat × Nat)) → String → Nat × Nat →
    List (String × List (Nat × Nat))
  | [], v, cell => [(v, [cell])]
  | (k, cs) :: rest, v, cell =>
    if k = v then (k, cs ++ [cell]) :: rest else (k, cs) :: addCell rest v cell

/-- The fold over all cells performed by get_puzzle_regions. -/
def buildRegions : List (String × List (Nat × Nat)) → List (String × (Nat × Nat)) →
    List (String × List (Nat × Nat))
  | regions, [] => regions
  | regions, (v, cell) :: rest => buildRegions (addCell regions v cell) rest

/-- Embedding of get_puzzle_regions (src/solver.py lines 13-21): mapping from
region label to the list of its (row, col) cells in row-major order, labels in
order of first appearance. -/
def get_puzzle_regions (g : Grid) : List (String × List (Nat × Nat)) :=
  buildRegions [] (cellsOf g)

/-- Association-list lookup for the region mapping (empty list for an absent
label). -/
def lookupCells : List (String × List (Nat × Nat)) → String → List (Nat × Nat)
  | [], _ => []
  | (k, cs) :: rest, l => if k = l then cs else lookupCells rest l

/-- The labels present in the region mapping, in order. -/
def keysOf (regions : List (String × List (Nat × Nat))) : List String :=
  regions.map Prod.fst

/-- The label of cell (r, c) of a grid (emptyLabel out of range). -/
def labelAt (g : Grid) (r c : Nat) : String :=
  (g.getD r []).getD c emptyLabel

/-- The grid is square: every row has as many cells as there are rows. -/
def isSquareB (g : Grid) : Bool :=
  g.all fun row => decide (row.length = g.length)

/-- Embedding of the reified cell matrix (src/solver.py lines 61-66):
cell_has_queen r c holds iff the assignment puts the queen of row r in
column c. -/
def queenAt (qc : List Nat) (r c : Nat) : Bool :=
  match qc.get? r with
  | some col => decide (col = c)
  | none => false

/-- Embedding of the all_different constraint over queen columns
(src/solver.py line 71). -/
def pairwiseDistinct : List Nat → Bool
  | [] => true
  | c :: rest => decide (c ∉ rest) && pairwiseDistinct rest

/-- Embedding of the consecutive-row distance constraints (src/solver.py lines
74-75): the columns of every two consecutive rows differ by more than 1. -/
def consecutiveFar : List Nat → Bool
  | [] => true
  | [_] => true
  | a :: b :: rest => decide (1 < Nat.dist a b) && consecutiveFar (b :: rest)

/-- Embedding of one region's sum constraint (src/solver.py line 79): the
region's cells carry exactly one queen. -/
def regionExactlyOne (qc : List Nat) (cells : List (Nat × Nat)) : Bool :=
  decide ((cells.filter fun rc => queenAt qc rc.1 rc.2).length = 1)

/-- All region sum constraints (src/solver.py lines 78-79). -/
def regionsConstraint (qc : List Nat) (regions : List (String × List (Nat × Nat))) : Bool :=
  regions.all fun lr => regionExactlyOne qc lr.2

/-- A full assignment satisfying the posted constraint model: domains 0..n-1
(src/solver.py line 58) and the three rule families (lines 68-79). -/
def isSolution (puzzle : Grid) (qc : List Nat) : Bool :=
  let n := get_puzzle_size puzzle
  decide (qc.length = n) && qc.all (fun c => decide (c < n)) &&
    pairwiseDistinct qc && consecutiveFar qc &&
    regionsConstraint qc (get_puzzle_regions puzzle)

/-- Modelled from the spec: the external engine's candidate space — all
row-indexed column tuples of length k with entries below n, in lexicographic
order (the spec's deterministic smallest-column-first order, section 4.3). -/
def allAssignments (n : Nat) : Nat → List (List Nat)
  | 0 => [[]]
  | k + 1 => appendMap (List.range n) fun c => (allAssignments n k).map fun rest => c :: rest

/-- Modelled from the spec: the solutions the external engine enumerates, in
its deterministic order — the satisfying assignments of the posted model in
lexicographic order. -/
def solutions (puzzle : Grid) : List (List Nat) :=
  let n := get_puzzle_size puzzle
  (allAssignments n n).filter (isSolution puzzle)

/-- Pair each entry of a list with its index counted from i0; mirrors the
first_solution comprehension of src/solver.py line 85. -/
def indexPairs : Nat → List Nat → List (Nat × Nat)
  | _, [] => []
  | i0, c :: cs => (i0, c) :: indexPairs (i0 + 1) cs

/-- The dictionary returned by solve_puzzle (src/solver.py lines 92-96). -/
structure SolveResult where
  number_of_solutions : Nat
  initial_board : Grid
  queens : Option (List (Nat × Nat))
deriving DecidableEq

/-- Embedding of the solving part of solve_puzzle (src/solver.py lines 51-96):
count starts at 1 after the first solve() call whether or not it succeeded,
then one increment per further solution; queens is the first enumerated
solution as (row, col) pairs (none models the read of an unsolved model when
no solution exists). -/
def solve_core (puzzle : Grid) : SolveResult :=
  let sols := solutions puzzle
  { number_of_solutions := 1 + (sols.length - 1)
    initial_board := puzzle
    queens := sols.head?.map (indexPairs 0) }

/-- Embedding of parse_board_from_txt (src/visuals.py lines 32-43), the file
given as its list of non-blank lines, each already split into raw fields
(string splitting is an I/O concern): nonempty fields of each line are kept,
then the set of row lengths must have exactly one element. -/
def parse_board_from_txt (lines : List (List String)) :
    Except String (List (List String)) :=
  let rows := lines.map fun ln => ln.filter fun p => decide (p ≠ emptyLabel)
  if (rows.map List.length).dedup.length ≠ 1 then
    Except.error ("Inconsistent row lengths in board representation.")
  else
    Except.ok rows

/-- Embedding of solve_puzzle's argument handling (src/solver.py lines 44-49):
error when both inputs are absent; a provided matrix takes precedence;
otherwise the text input is parsed. -/
def solve_puzzle (puzzle_text : Option (List (List String)))
    (puzzle_matrix : Option Grid) : Except String SolveResult :=
  match puzzle_text, puzzle_matrix with
  | none, none =>
    Except.error ("Either puzzle_text_path or puzzle_matrix must be provided.")
  | _, some m => Except.ok (solve_core m)
  | some t, none =>
    match parse_board_from_txt t with
    | Except.error e => Except.error e
    | Except.ok rows => Except.ok (solve_core rows)

/-- Modelled from the spec (section 4.2 canPlace): a queen already placed on a
cell of the region of cell (r, c). -/
def regionHasQueen (p : Grid) (qc : List Nat) (r c : Nat) : Bool :=
  (lookupCells (get_puzzle_regions p) (labelAt p r c)).any fun rc =>
    queenAt qc rc.1 rc.2

/-- Modelled from the spec (section 4.2 canPlace): column c is free for the
next row given the partial assignment pre — the column is unused, it is more
than 1 away from the previous row's column, and its region has no queen yet. -/
def canPlace (p : Grid) (pre : List Nat) (c : Nat) : Bool :=
  decide (c ∉ pre) &&
    (match pre.getLast? with
     | none => true
     | some prev => decide (1 < Nat.dist prev c)) &&
    !(regionHasQueen p pre pre.length c)

/-- Modelled from the spec (section 4.3): the depth-first search over rows,
trying candidate columns in strictly increasing order 0..n-1, keeping the
feasible ones, and at full depth keeping the assignment when every region
holds exactly one queen; returns the solutions in search order. -/
def dfs (p : Grid) (n : Nat) : Nat → List Nat → List (List Nat)
  | 0, pre =>
    if regionsConstraint pre (get_puzzle_regions p) then [pre] else []
  | k + 1, pre =>
    appendMap (List.range n) fun c =>
      if canPlace p pre c then dfs p n k (pre ++ [c]) else []

/-- Modelled from the spec: the assignments found by the spec's search engine,
in search order. -/
def searchSolutions (p : Grid) : List (List Nat) :=
  dfs p (get_puzzle_size p) (get_puzzle_size p) []

/-- Spec-side statement of the Chebyshev-adjacency rule, from the spec's
words: every two marker positions (i, qc i), (j, qc j) are at maximum
coordinate-wise distance strictly greater than 1. -/
def chebyshevOkAllPairs (qc : List Nat) : Prop :=
  ∀ i j, i < j → j < qc.length →
    1 < max (Nat.dist i j) (Nat.dist (qc.getD i 0) (qc.getD j 0))

/-- Relabelling of a region mapping, used to state label-representation
independence. -/
def relabelRegions (f : String → String)
    (regions : List (String × List (Nat × Nat))) :
    List (String × List (Nat × Nat)) :=
  regions.map fun lc => (f lc.1, lc.2)

theorem mem_appendMap {α β : Type} (l : List α) (f : α → List β) (b : β) :
    b ∈ appendMap l f ↔ ∃ a ∈ l, b ∈ f a := by
  induction l with
  | nil => simp [appendMap]
  | cons a l ih => simp [appendMap, ih]

theorem map_appendMap {α β γ : Type} (l : List α) (f : α → List β) (h : β → γ) :
    (appendMap l f).map h = appendMap l fun a => (f a).map h := by
  induction l with
  | nil => simp [appendMap]
  | cons a l ih => simp [appendMap, ih]

theorem filter_appendMap {α β : Type} (l : List α) (f : α → List β) (q : β → Bool) :
    (appendMap l f).filter q = appendMap l fun a => (f a).filter q := by
  induction l with
  | nil => simp [appendMap]
  | cons a l ih => simp [appendMap, List.filter_append, ih]

theorem length_appendMap {α β : Type} (l : List α) (f : α → List β) :
    (appendMap l f).length = (l.map fun a => (f a).length).sum := by
  induction l with
  | nil => simp [appendMap]
  | cons a l ih => simp [appendMap, ih]

theorem appendMap_congr {α β : Type} {l : List α} {f g : α → List β}
    (h : ∀ a ∈ l, f a = g a) : appendMap l f = appendMap l g := by
  induction l with
  | nil => rfl
  | cons a l ih =>
    simp only [appendMap]
    rw [h a (List.mem_cons_self a l), ih]
    intro a ha
    exact h a (List.mem_cons_of_mem _ ha)

theorem pairwiseDistinct_iff_nodup (l : List Nat) :
    pairwiseDistinct l = true ↔ l.Nodup := by
  induction l with
  | nil => simp [pairwiseDistinct]
  | cons c rest ih => simp [pairwiseDistinct, ih, List.nodup_cons]

theorem consecutiveFar_iff (l : List Nat) :
    consecutiveFar l = true ↔
      ∀ i, i + 1 < l.length → 1 < Nat.dist (l.getD i 0) (l.getD (i + 1) 0) := by
  induction l with
  | nil => simp [consecutiveFar]
  | cons a tail ih =>
    cases tail with
    | nil => simp [consecutiveFar]
    | cons b rest =>
      simp only [consecutiveFar, Bool.and_eq_true, decide_eq_true_eq, ih]
      constructor
      · rintro ⟨h1, h2⟩ i hi
        cases i with
        | zero => simpa using h1
        | succ i =>
          have := h2 i (by simpa using hi)
          simpa using this
      · intro h
        refine ⟨by simpa using h 0 (by simp), ?_⟩
        intro i hi
        have := h (i + 1) (by simpa using hi)
        simpa using this

theorem mem_allAssignments (n : Nat) :
    ∀ k qc, qc ∈ allAssignments n k ↔ (qc.length = k ∧ ∀ c ∈ qc, c < n) := by
  intro k
  induction k with
  | zero =>
    intro qc
    simp [allAssignments, List.length_eq_zero]
    rintro rfl
    simp
  | succ k ih =>
    intro qc
    simp only [allAssignments, mem_appendMap, List.mem_range, List.mem_map]
    constructor
    · rintro ⟨c, hc, rest, hrest, rfl⟩
      obtain ⟨hl, hall⟩ := (ih rest).mp hrest
      refine ⟨by simp [hl], ?_⟩
      intro x hx
      rcases List.mem_cons.mp hx with rfl | hx
      · exact hc
      · exact hall x hx
    · rintro ⟨hl, hall⟩
      cases qc with
      | nil => simp at hl
      | cons c rest =>
        refine ⟨c, hall c (by simp), rest, (ih rest).mpr ⟨by simpa using hl, ?_⟩, rfl⟩
        intro x hx
        exact hall x (List.mem_cons_of_mem _ hx)

theorem length_allAssignments (n : Nat) : ∀ k, (allAssignments n k).length = n ^ k := by
  intro k
  induction k with
  | zero => simp [allAssignments]
  | succ k ih =>
    simp only [allAssignments, length_appendMap, List.length_map, ih]
    have : ((List.range n).map fun _ => n ^ k).sum = n * n ^ k := by
      simp [List.map_const', List.sum_replicate, smul_eq_mul]
    simpa [this] using (by ring : n * n ^ k = n ^ (k + 1))

theorem nodup_all_eq_length_one {l : List Nat} (hn : l.Nodup) (hne : l ≠ [])
    (hall : ∀ a ∈ l, ∀ b ∈ l, a = b) : l.length = 1 := by
  cases l with
  | nil => exact absurd rfl hne
  | cons a tail =>
    cases tail with
    | nil => rfl
    | cons b rest =>
      exfalso
      have hab : a = b := hall a (by simp) b (by simp)
      have : a ∉ b :: rest := (List.nodup_cons.mp hn).1
      exact this (by simp [hab])

theorem dedup_length_ne_one (l : List Nat) :
    l.dedup.length ≠ 1 ↔ (l = [] ∨ ∃ a ∈ l, ∃ b ∈ l, a ≠ b) := by
  by_cases hl : l = []
  · subst hl; simp
  · constructor
    · intro h
      refine Or.inr ?_
      by_contra hcon
      push_neg at hcon
      refine h (nodup_all_eq_length_one l.nodup_dedup ?_ ?_)
      · simpa [List.dedup_eq_nil] using hl
      · intro a ha b hb
        exact hcon a (List.mem_dedup.mp ha) b (List.mem_dedup.mp hb)
    · rintro (rfl | ⟨a, ha, b, hb, hab⟩)
      · exact absurd rfl hl
      · intro h
        obtain ⟨x, hx⟩ := List.length_eq_one.mp h
        have ha' : a = x := by
          have := List.mem_dedup.mpr ha
          rw [hx] at this
          simpa using this
        have hb' : b = x := by
          have := List.mem_dedup.mpr hb
          rw [hx] at this
          simpa using this
        exact hab (ha'.trans hb'.symm)

theorem rowcheck_iff (rows : List (List String)) :
    (rows.map List.length).dedup.length ≠ 1 ↔
      (rows = [] ∨ ∃ r1 ∈ rows, ∃ r2 ∈ rows, r1.length ≠ r2.length) := by
  rw [dedup_length_ne_one]
  constructor
  · rintro (h | ⟨a, ha, b, hb, hab⟩)
    · exact Or.inl (List.map_eq_nil.mp h)
    · obtain ⟨r1, hr1, rfl⟩ := List.mem_map.mp ha
      obtain ⟨r2, hr2, rfl⟩ := List.mem_map.mp hb
      exact Or.inr ⟨r1, hr1, r2, hr2, hab⟩
  · rintro (rfl | ⟨r1, hr1, r2, hr2, h⟩)
    · exact Or.inl rfl
    · exact Or.inr ⟨r1.length, List.mem_map_of_mem _ hr1,
        r2.length, List.mem_map_of_mem _ hr2, h⟩

/-- Claim C3 counterexample: a 2 by 3 grid — not square, but with consistent
row lengths — is accepted by board construction without any error, where the
claim requires a MalformedBoardError. -/
theorem parse_board_accepts_nonsquare :
    parse_board_from_txt [["a", "b", "c"], ["d", "e", "f"]] =
      Except.ok [["a", "b", "c"], ["d", "e", "f"]] := rfl

/-- Claim C3 (amended): board construction fails exactly when the cleaned-up
grid has no rows (n = 0) or two rows of different lengths; the check happens
at construction, before any search; a non-square grid whose rows all have the
same length is not rejected. -/
theorem parse_board_error_iff (lines : List (List String)) :
    (∃ e, parse_board_from_txt lines = Except.error e) ↔
      ((lines.map fun ln => ln.filter fun p => decide (p ≠ emptyLabel)) = [] ∨
        ∃ r1 ∈ lines.map fun ln => ln.filter fun p => decide (p ≠ emptyLabel),
          ∃ r2 ∈ lines.map fun ln => ln.filter fun p => decide (p ≠ emptyLabel),
            r1.length ≠ r2.length) := by
  have hunf : parse_board_from_txt lines =
      (if ((lines.map fun ln => ln.filter fun p => decide (p ≠ emptyLabel)).map
            List.length).dedup.length ≠ 1
       then Except.error ("Inconsistent row lengths in board representation.")
       else Except.ok (lines.map fun ln => ln.filter fun p => decide (p ≠ emptyLabel))) :=
    rfl
  rw [hunf, ← rowcheck_iff]
  split_ifs with h
  · exact iff_of_true ⟨_, rfl⟩ h
  · refine iff_of_false ?_ h
    rintro ⟨e, he⟩
    exact he

/-- Claim C10: calling solve_puzzle with neither a text path nor a matrix
raises a ValueError before any parsing or search. -/
theorem solve_puzzle_requires_input :
    solve_puzzle none none =
      Except.error ("Either puzzle_text_path or puzzle_matrix must be provided.") := rfl

/-- Claim C1 (code bug): on a 2 by 2 board every assignment violates the
consecutive-row distance rule, so there are zero satisfying assignments, yet
solve reports number_of_solutions = 1 (the counter starts at 1 whether or not
the first solve() call succeeded); in general the reported count can never
be 0. -/
theorem zero_solution_board_reports_one :
    solutions [["a", "a"], ["b", "b"]] = [] ∧
    solve_core [["a", "a"], ["b", "b"]] =
      { number_of_solutions := 1
        initial_board := [["a", "a"], ["b", "b"]]
        queens := none } ∧
    ∀ p : Grid, 1 ≤ (solve_core p).number_of_solutions := by
  refine ⟨rfl, rfl, ?_⟩
  intro p
  exact Nat.le_add_right 1 _

/-- Claim C9: the modelled search space is finite with exactly n ^ n candidate
assignments, the enumerated solutions are at most that many, and solve always
returns a complete Result. -/
theorem solve_always_returns (p : Grid) :
    (allAssignments (get_puzzle_size p) (get_puzzle_size p)).length =
      get_puzzle_size p ^ get_puzzle_size p ∧
    (solutions p).length ≤ get_puzzle_size p ^ get_puzzle_size p ∧
    solve_puzzle none (some p) = Except.ok (solve_core p) := by
  refine ⟨length_allAssignments _ _, ?_, rfl⟩
  have h2 : (solutions p).length ≤
      (allAssignments (get_puzzle_size p) (get_puzzle_size p)).length :=
    List.length_filter_le _ _
  exact h2.trans_eq (length_allAssignments _ _)

/-- Claim C4 counterexample: a 2 by 2 board with four singleton regions has
zero satisfying assignments, yet solve reports number_of_solutions = 1, so the
reported count does not equal the number of satisfying assignments there. -/
theorem count_mismatch_on_zero_solution_board :
    (solve_core [["w", "x"], ["y", "z"]]).number_of_solutions = 1 ∧
    (solutions [["w", "x"], ["y", "z"]]).length = 0 := ⟨rfl, rfl⟩

/-- Claim C4 (amended): on every board with at least one satisfying assignment
the reported count equals the total number of satisfying assignments, and the
enumeration is complete — an assignment satisfies the posted constraints
exactly when it occurs in the enumerated solution list; on a zero-solution
board the code instead reports 1. -/
theorem solve_counts_all_solutions (p : Grid) (h : solutions p ≠ []) :
    (solve_core p).number_of_solutions = (solutions p).length ∧
    ∀ qc, isSolution p qc = true ↔ qc ∈ solutions p := by
  constructor
  · have hlen : 1 ≤ (solutions p).length := List.length_pos.mpr h
    simp only [solve_core]
    omega
  · intro qc
    constructor
    · intro hs
      have hd : qc.length = get_puzzle_size p ∧ ∀ c ∈ qc, c < get_puzzle_size p := by
        have hs' := hs
        simp only [isSolution, Bool.and_eq_true, decide_eq_true_eq,
          List.all_eq_true] at hs'
        exact ⟨hs'.1.1.1.1, fun c hc => hs'.1.1.1.2 c hc⟩
      exact List.mem_filter.mpr ⟨(mem_allAssignments _ _ qc).mpr hd, hs⟩
    · intro hm
      exact (List.mem_filter.mp hm).2

/-- Claim C4 witness: a 1 by 1 board has one satisfying assignment and the
reported count equals it. -/
theorem solve_counts_all_solutions_witness :
    solutions [["a"]] ≠ [] ∧
    (solve_core [["a"]]).number_of_solutions = (solutions [["a"]]).length :=
  ⟨by decide, (solve_counts_all_solutions [["a"]] (by decide)).1⟩

/-- Claim C2: whenever solve returns a first solution, that assignment
satisfies the three rule families: pairwise-distinct columns, consecutive
rows at column distance above 1, and exactly one queen in every region of the
board. -/
theorem first_solution_satisfies_rules (p : Grid) (qc : List Nat)
    (h : (solutions p).head? = some qc) :
    (solve_core p).queens = some (indexPairs 0 qc) ∧
    qc.Nodup ∧
    (∀ i, i + 1 < qc.length → 1 < Nat.dist (qc.getD i 0) (qc.getD (i + 1) 0)) ∧
    ∀ l cells, (l, cells) ∈ get_puzzle_regions p →
      (cells.filter fun rc => queenAt qc rc.1 rc.2).length = 1 := by
  have hq : (solve_core p).queens = some (indexPairs 0 qc) := by
    simp [solve_core, h]
  have hmem : qc ∈ solutions p := List.mem_of_mem_head? h
  have hsol : isSolution p qc = true := (List.mem_filter.mp hmem).2
  simp only [isSolution, Bool.and_eq_true, decide_eq_true_eq,
    List.all_eq_true] at hsol
  obtain ⟨⟨⟨⟨hlen, hdom⟩, hdist⟩, hfar⟩, hreg⟩ := hsol
  refine ⟨hq, (pairwiseDistinct_iff_nodup qc).mp hdist,
    (consecutiveFar_iff qc).mp hfar, ?_⟩
  intro l cells hmem2
  simp only [regionsConstraint, List.all_eq_true] at hreg
  have hone := hreg (l, cells) hmem2
  simpa [regionExactlyOne] using hone

/-- Claim C2 witness: the 1 by 1 board. -/
theorem first_solution_satisfies_rules_witness :
    (solutions [["b"]]).head? = some [0] ∧
    (solve_core [["b"]]).queens = some (indexPairs 0 [0]) :=
  ⟨rfl, (first_solution_satisfies_rules [["b"]] [0] rfl).1⟩

/-- Claim C7: for a full assignment with pairwise-distinct columns, the
source's consecutive-rows-only distance check accepts exactly when the spec's
all-pairs Chebyshev-adjacency rule holds — markers in rows more than one apart
are automatically at Chebyshev distance above 1. -/
theorem consecutive_check_iff_all_pairs (qc : List Nat) (hnd : qc.Nodup) :
    consecutiveFar qc = true ↔ chebyshevOkAllPairs qc := by
  rw [consecutiveFar_iff]
  constructor
  · intro h i j hij hj
    rcases Nat.lt_or_ge (j - i) 2 with hd | hd
    · have hji : j = i + 1 := by omega
      subst hji
      exact lt_max_iff.mpr (Or.inr (h i hj))
    · have hrow : 1 < Nat.dist i j := by
        simp only [Nat.dist]
        omega
      exact lt_max_iff.mpr (Or.inl hrow)
  · intro h i hi
    have hpair := h i (i + 1) (by omega) hi
    have hrow : Nat.dist i (i + 1) = 1 := by
      simp only [Nat.dist]
      omega
    rw [hrow] at hpair
    rcases lt_max_iff.mp hpair with h1 | h2
    · omega
    · exact h2

/-- Claim C7 witness: the assignment with columns 0 and 2. -/
theorem consecutive_check_iff_all_pairs_witness :
    ([0, 2] : List Nat).Nodup ∧
    (consecutiveFar [0, 2] = true ↔ chebyshevOkAllPairs [0, 2]) :=
  ⟨by decide, consecutive_check_iff_all_pairs [0, 2] (by decide)⟩

theorem rowCells_map (f : String → String) (r : Nat) :
    ∀ c0 vs, rowCells r c0 (vs.map f) =
      (rowCells r c0 vs).map fun vc => (f vc.1, vc.2) := by
  intro c0 vs
  induction vs generalizing c0 with
  | nil => rfl
  | cons v vs ih => simp [rowCells, ih]

theorem cellsOfAux_map (f : String → String) :
    ∀ r0 g, cellsOfAux r0 (g.map (List.map f)) =
      (cellsOfAux r0 g).map fun vc => (f vc.1, vc.2) := by
  intro r0 g
  induction g generalizing r0 with
  | nil => rfl
  | cons row rest ih => simp [cellsOfAux, rowCells_map, ih]

theorem addCell_relabel (f : String → String) (hf : Function.Injective f) :
    ∀ rs v cell, addCell (relabelRegions f rs) (f v) cell =
      relabelRegions f (addCell rs v cell) := by
  intro rs v cell
  induction rs with
  | nil => rfl
  | cons kc rest ih =>
    obtain ⟨k, cs⟩ := kc
    by_cases hk : k = v
    · subst hk
      simp [relabelRegions, addCell]
    · have hfk : ¬(f k = f v) := fun hh => hk (hf hh)
      simp only [relabelRegions, List.map_cons, addCell, if_neg hk, if_neg hfk]
      rw [show (relabelRegions f rest) = rest.map fun lc => (f lc.1, lc.2) from rfl] at ih
      rw [ih]
      rfl

theorem buildRegions_relabel (f : String → String) (hf : Function.Injective f) :
    ∀ items base,
      buildRegions (relabelRegions f base) (items.map fun vc => (f vc.1, vc.2)) =
        relabelRegions f (buildRegions base items) := by
  intro items
  induction items with
  | nil => intro base; rfl
  | cons vc rest ih =>
    intro base
    obtain ⟨v, cell⟩ := vc
    simp only [List.map_cons, buildRegions]
    rw [addCell_relabel f hf, ih]

theorem get_puzzle_regions_relabel (f : String → String) (hf : Function.Injective f)
    (g : Grid) :
    get_puzzle_regions (g.map (List.map f)) =
      relabelRegions f (get_puzzle_regions g) := by
  show buildRegions [] (cellsOfAux 0 (g.map (List.map f))) = _
  rw [cellsOfAux_map]
  exact buildRegions_relabel f hf (cellsOfAux 0 g) []

theorem regionsConstraint_relabel (qc : List Nat) (f : String → String)
    (rs : List (String × List (Nat × Nat))) :
    regionsConstraint qc (relabelRegions f rs) = regionsConstraint qc rs := by
  simp only [regionsConstraint, relabelRegions, List.all_map]
  rfl

theorem isSolution_relabel (f : String → String) (hf : Function.Injective f)
    (g : Grid) (qc : List Nat) :
    isSolution (g.map (List.map f)) qc = isSolution g qc := by
  simp only [isSolution, get_puzzle_size, List.length_map,
    get_puzzle_regions_relabel f hf, regionsConstraint_relabel]

theorem solutions_relabel (f : String → String) (hf : Function.Injective f)
    (g : Grid) : solutions (g.map (List.map f)) = solutions g := by
  show (allAssignments (g.map (List.map f)).length (g.map (List.map f)).length).filter _ = _
  simp only [List.length_map]
  exact List.filter_congr fun qc _ => isSolution_relabel f hf g qc

/-- Claim C5: solving is deterministic — repeated runs on the same board are
identical — and the reported count and first solution are unchanged under any
injective renaming of the region labels. -/
theorem solve_deterministic_label_independent (p : Grid) (f : String → String)
    (hf : Function.Injective f) :
    solve_core p = solve_core p ∧
    (solve_core (p.map (List.map f))).number_of_solutions =
      (solve_core p).number_of_solutions ∧
    (solve_core (p.map (List.map f))).queens = (solve_core p).queens := by
  refine ⟨rfl, ?_, ?_⟩ <;> simp [solve_core, solutions_relabel f hf p]

/-- Claim C5 witness: the identity relabelling on a 1 by 1 board. -/
theorem solve_deterministic_label_independent_witness :
    Function.Injective (fun s : String => s) ∧
    (solve_core ([["d"]].map (List.map fun s : String => s))).queens =
      (solve_core [["d"]]).queens :=
  ⟨fun _ _ h => h,
    (solve_deterministic_label_independent [["d"]] (fun s => s) fun _ _ h => h).2.2⟩

theorem lookupCells_addCell_same (rs : List (String × List (Nat × Nat)))
    (v : String) (cell : Nat × Nat) :
    lookupCells (addCell rs v cell) v = lookupCells rs v ++ [cell] := by
  induction rs with
  | nil => simp [addCell, lookupCells]
  | cons kc rest ih =>
    obtain ⟨k, cs⟩ := kc
    by_cases hk : k = v
    · subst hk
      simp [addCell, lookupCells]
    · simp [addCell, lookupCells, hk, ih]

theorem lookupCells_addCell_ne (rs : List (String × List (Nat × Nat)))
    (v l : String) (cell : Nat × Nat) (h : l ≠ v) :
    lookupCells (addCell rs v cell) l = lookupCells rs l := by
  induction rs with
  | nil =>
    simp only [addCell, lookupCells]
    rw [if_neg (fun hh => h hh.symm)]
  | cons kc rest ih =>
    obtain ⟨k, cs⟩ := kc
    by_cases hk : k = v
    · subst hk
      simp only [addCell, if_pos rfl, lookupCells]
      rw [if_neg (fun hh => h hh.symm), if_neg (fun hh => h hh.symm)]
    · simp only [addCell, if_neg hk, lookupCells]
      by_cases hkl : k = l
      · rw [if_pos hkl, if_pos hkl]
      · rw [if_neg hkl, if_neg hkl, ih]

theorem addCell_cons_same (k : String) (cs : List (Nat × Nat))
    (rest : List (String × List (Nat × Nat))) (cell : Nat × Nat) :
    addCell ((k, cs) :: rest) k cell = (k, cs ++ [cell]) :: rest := by
  show (if k = k then (k, cs ++ [cell]) :: rest else (k, cs) :: addCell rest k cell) = _
  rw [if_pos rfl]

theorem addCell_cons_ne {k v : String} (h : k ≠ v) (cs : List (Nat × Nat))
    (rest : List (String × List (Nat × Nat))) (cell : Nat × Nat) :
    addCell ((k, cs) :: rest) v cell = (k, cs) :: addCell rest v cell := by
  show (if k = v then (k, cs ++ [cell]) :: rest else (k, cs) :: addCell rest v cell) = _
  rw [if_neg h]

theorem mem_keysOf_addCell (rs : List (String × List (Nat × Nat)))
    (v l : String) (cell : Nat × Nat) :
    l ∈ keysOf (addCell rs v cell) ↔ l ∈ keysOf rs ∨ l = v := by
  induction rs with
  | nil => simp [addCell, keysOf, eq_comm]
  | cons kc rest ih =>
    obtain ⟨k, cs⟩ := kc
    by_cases hk : k = v
    · subst hk
      rw [addCell_cons_same]
      constructor
      · intro h
        rcases List.mem_cons.mp h with rfl | h2
        · exact Or.inr rfl
        · exact Or.inl (List.mem_cons_of_mem _ h2)
      · intro h
        rcases h with h | rfl
        · rcases List.mem_cons.mp h with rfl | h3
          · exact List.mem_cons_self _ _
          · exact List.mem_cons_of_mem _ h3
        · exact List.mem_cons_self _ _
    · rw [addCell_cons_ne hk]
      constructor
      · intro h
        rcases List.mem_cons.mp h with rfl | h2
        · exact Or.inl (List.mem_cons_self _ _)
        · rcases ih.mp h2 with h3 | h3
          · exact Or.inl (List.mem_cons_of_mem _ h3)
          · exact Or.inr h3
      · intro h
        rcases h with h | rfl
        · rcases List.mem_cons.mp h with rfl | h3
          · exact List.mem_cons_self _ _
          · exact List.mem_cons_of_mem _ (ih.mpr (Or.inl h3))
        · exact List.mem_cons_of_mem _ (ih.mpr (Or.inr rfl))

theorem nodup_keysOf_addCell {rs : List (String × List (Nat × Nat))}
    {v : String} {cell : Nat × Nat} (h : (keysOf rs).Nodup) :
    (keysOf (addCell rs v cell)).Nodup := by
  induction rs with
  | nil => simp [addCell, keysOf]
  | cons kc rest ih =>
    obtain ⟨k, cs⟩ := kc
    have h2 : k ∉ keysOf rest ∧ (keysOf rest).Nodup := List.nodup_cons.mp h
    obtain ⟨hkn, hrest⟩ := h2
    by_cases hk : k = v
    · subst hk
      rw [addCell_cons_same]
      exact List.nodup_cons.mpr ⟨hkn, hrest⟩
    · rw [addCell_cons_ne hk]
      refine List.nodup_cons.mpr ⟨?_, ih hrest⟩
      intro hmem
      rcases (mem_keysOf_addCell rest v k cell).mp hmem with hin | heq
      · exact hkn hin
      · exact hk heq

theorem mem_iff_lookup {rs : List (String × List (Nat × Nat))}
    (hn : (keysOf rs).Nodup) (l : String) (cs : List (Nat × Nat)) :
    (l, cs) ∈ rs ↔ (l ∈ keysOf rs ∧ cs = lookupCells rs l) := by
  induction rs with
  | nil => simp [keysOf, lookupCells]
  | cons kc rest ih =>
    obtain ⟨k, cs2⟩ := kc
    simp only [keysOf, List.map_cons, List.nodup_cons] at hn
    obtain ⟨hkn, hrest⟩ := hn
    have ihr := ih hrest
    constructor
    · intro hmem
      rcases List.mem_cons.mp hmem with heq | hmem2
      · have hl : l = k := congrArg Prod.fst heq
        have hcs : cs = cs2 := congrArg Prod.snd heq
        subst hl
        subst hcs
        refine ⟨by simp [keysOf], ?_⟩
        simp [lookupCells]
      · obtain ⟨hmemk, hlook⟩ := ihr.mp hmem2
        have hkl : k ≠ l := by
          intro hh
          exact hkn (hh ▸ hmemk)
        refine ⟨List.mem_cons_of_mem k hmemk, ?_⟩
        simpa [lookupCells, if_neg hkl] using hlook
    · rintro ⟨hmem, hcs⟩
      simp only [keysOf, List.map_cons, List.mem_cons] at hmem
      rcases hmem with rfl | hmem2
      · rw [show lookupCells ((l, cs2) :: rest) l = cs2 from by simp [lookupCells]] at hcs
        subst hcs
        exact List.mem_cons_self _ _
      · have hkl : k ≠ l := by
          intro hh
          exact hkn (hh ▸ hmem2)
        rw [show lookupCells ((k, cs2) :: rest) l = lookupCells rest l from by
          simp [lookupCells, if_neg hkl]] at hcs
        exact List.mem_cons_of_mem _ (ihr.mpr ⟨hmem2, hcs⟩)

theorem lookupCells_buildRegions (l : String) :
    ∀ (items : List (String × (Nat × Nat))) (base : List (String × List (Nat × Nat))),
      lookupCells (buildRegions base items) l =
        lookupCells base l ++ (items.filter fun vc => decide (vc.1 = l)).map Prod.snd := by
  intro items
  induction items with
  | nil =>
    intro base
    simp [buildRegions]
  | cons vc rest ih =>
    intro base
    obtain ⟨v, cell⟩ := vc
    simp only [buildRegions]
    rw [ih]
    by_cases hv : v = l
    · subst hv
      rw [lookupCells_addCell_same]
      simp [List.filter_cons]
    · rw [lookupCells_addCell_ne _ _ _ _ fun hh => hv hh.symm]
      simp [List.filter_cons, hv]

theorem mem_keysOf_buildRegions (l : String) :
    ∀ (items : List (String × (Nat × Nat))) (base : List (String × List (Nat × Nat))),
      l ∈ keysOf (buildRegions base items) ↔
        l ∈ keysOf base ∨ l ∈ items.map Prod.fst := by
  intro items
  induction items with
  | nil =>
    intro base
    simp [buildRegions]
  | cons vc rest ih =>
    intro base
    obtain ⟨v, cell⟩ := vc
    simp only [buildRegions, List.map_cons, List.mem_cons]
    rw [ih, mem_keysOf_addCell]
    tauto

theorem nodup_keysOf_buildRegions :
    ∀ (items : List (String × (Nat × Nat))) (base : List (String × List (Nat × Nat))),
      (keysOf base).Nodup → (keysOf (buildRegions base items)).Nodup := by
  intro items
  induction items with
  | nil =>
    intro base h
    exact h
  | cons vc rest ih =>
    intro base h
    obtain ⟨v, cell⟩ := vc
    exact ih _ (nodup_keysOf_addCell h)

theorem mem_rowCells (r : Nat) :
    ∀ (vs : List String) (c0 : Nat) (v : String) (rr cc : Nat),
      (v, (rr, cc)) ∈ rowCells r c0 vs ↔
        (rr = r ∧ c0 ≤ cc ∧ cc - c0 < vs.length ∧ vs.getD (cc - c0) emptyLabel = v) := by
  intro vs
  induction vs with
  | nil => simp [rowCells]
  | cons x xs ih =>
    intro c0 v rr cc
    simp only [rowCells, List.mem_cons]
    constructor
    · rintro (heq | hmem)
      · have h1 : v = x := congrArg Prod.fst heq
        have h2 : rr = r := congrArg (fun p => p.2.1) heq
        have h3 : cc = c0 := congrArg (fun p => p.2.2) heq
        subst h1; subst h2; subst h3
        refine ⟨rfl, le_refl _, by simp, by simp⟩
      · obtain ⟨h1, h2, h3, h4⟩ := (ih (c0 + 1) v rr cc).mp hmem
        refine ⟨h1, by omega, by simp; omega, ?_⟩
        obtain ⟨m, hm⟩ : ∃ m, cc - c0 = m + 1 := ⟨cc - (c0 + 1), by omega⟩
        rw [hm, List.getD_cons_succ]
        have : cc - (c0 + 1) = m := by omega
        rw [this] at h4
        exact h4
    · rintro ⟨rfl, h2, h3, h4⟩
      by_cases hcc : cc = c0
      · subst hcc
        left
        have : (x :: xs).getD 0 emptyLabel = v := by simpa [Nat.sub_self] using h4
        simp at this
        rw [this]
      · right
        refine (ih (c0 + 1) v rr cc).mpr ⟨rfl, by omega, by simp at h3; omega, ?_⟩
        obtain ⟨m, hm⟩ : ∃ m, cc - c0 = m + 1 := ⟨cc - (c0 + 1), by omega⟩
        rw [hm, List.getD_cons_succ] at h4
        have : cc - (c0 + 1) = m := by omega
        rw [this]
        exact h4

theorem mem_cellsOfAux :
    ∀ (g : Grid) (r0 : Nat) (v : String) (rr cc : Nat),
      (v, (rr, cc)) ∈ cellsOfAux r0 g ↔
        (r0 ≤ rr ∧ rr - r0 < g.length ∧
          (v, (rr, cc)) ∈ rowCells rr 0 (g.getD (rr - r0) [])) := by
  intro g
  induction g with
  | nil => simp [cellsOfAux]
  | cons row rest ih =>
    intro r0 v rr cc
    simp only [cellsOfAux, List.mem_append]
    constructor
    · rintro (hmem | hmem)
      · have hr : rr = r0 := ((mem_rowCells r0 row 0 v rr cc).mp hmem).1
        subst hr
        refine ⟨le_refl _, by simp, ?_⟩
        simpa [Nat.sub_self] using hmem
      · obtain ⟨h1, h2, h3⟩ := (ih (r0 + 1) v rr cc).mp hmem
        refine ⟨by omega, by simp; omega, ?_⟩
        obtain ⟨m, hm⟩ : ∃ m, rr - r0 = m + 1 := ⟨rr - (r0 + 1), by omega⟩
        rw [hm, List.getD_cons_succ]
        have : rr - (r0 + 1) = m := by omega
        rw [this] at h3
        exact h3
    · rintro ⟨h1, h2, h3⟩
      by_cases hr : rr = r0
      · subst hr
        left
        simpa [Nat.sub_self] using h3
      · right
        refine (ih (r0 + 1) v rr cc).mpr ⟨by omega, by simp at h2; omega, ?_⟩
        obtain ⟨m, hm⟩ : ∃ m, rr - r0 = m + 1 := ⟨rr - (r0 + 1), by omega⟩
        rw [hm, List.getD_cons_succ] at h3
        have : rr - (r0 + 1) = m := by omega
        rw [this]
        exact h3

theorem mem_cellsOf (g : Grid) (v : String) (rr cc : Nat) :
    (v, (rr, cc)) ∈ cellsOf g ↔
      (rr < g.length ∧ cc < (g.getD rr []).length ∧
        (g.getD rr []).getD cc emptyLabel = v) := by
  rw [cellsOf, mem_cellsOfAux]
  rw [mem_rowCells]
  constructor
  · rintro ⟨_, h2, _, _, h5, h6⟩
    exact ⟨by omega, by simpa using h5, by simpa using h6⟩
  · rintro ⟨h1, h2, h3⟩
    exact ⟨Nat.zero_le _, by omega, rfl, Nat.zero_le _, by simpa using h2, by simpa using h3⟩

theorem cellsOf_label_unique {g : Grid} {v1 v2 : String} {rc : Nat × Nat}
    (h1 : (v1, rc) ∈ cellsOf g) (h2 : (v2, rc) ∈ cellsOf g) : v1 = v2 := by
  obtain ⟨rr, cc⟩ := rc
  rw [mem_cellsOf] at h1 h2
  rw [← h1.2.2, ← h2.2.2]

theorem lookup_gpr (g : Grid) (l : String) :
    lookupCells (get_puzzle_regions g) l =
      ((cellsOf g).filter fun vc => decide (vc.1 = l)).map Prod.snd := by
  have h := lookupCells_buildRegions l (cellsOf g) []
  simpa [get_puzzle_regions, lookupCells] using h

theorem mem_keys_gpr (g : Grid) (l : String) :
    l ∈ keysOf (get_puzzle_regions g) ↔ l ∈ (cellsOf g).map Prod.fst := by
  have h := mem_keysOf_buildRegions l (cellsOf g) []
  simpa [get_puzzle_regions, keysOf] using h

theorem nodup_keys_gpr (g : Grid) : (keysOf (get_puzzle_regions g)).Nodup :=
  nodup_keysOf_buildRegions (cellsOf g) [] (by simp [keysOf])

/-- Claim C8: the region mapping derived from the grid pairs each distinct
label (no label twice) with the row-major ordered list of its cells; region
cell lists are nonempty, their union covers every cell of the grid, and no
cell lies in two different regions — the regions partition the board. -/
theorem regions_partition (g : Grid) :
    (keysOf (get_puzzle_regions g)).Nodup ∧
    (∀ l cs, (l, cs) ∈ get_puzzle_regions g →
      cs = ((cellsOf g).filter fun vc => decide (vc.1 = l)).map Prod.snd ∧ cs ≠ []) ∧
    (∀ v rc, (v, rc) ∈ cellsOf g →
      ∃ cs, (v, cs) ∈ get_puzzle_regions g ∧ rc ∈ cs) ∧
    (∀ l1 cs1 l2 cs2 rc, (l1, cs1) ∈ get_puzzle_regions g →
      (l2, cs2) ∈ get_puzzle_regions g → rc ∈ cs1 → rc ∈ cs2 →
      l1 = l2 ∧ cs1 = cs2) := by
  have hn := nodup_keys_gpr g
  refine ⟨hn, ?_, ?_, ?_⟩
  · intro l cs hmem
    obtain ⟨hkey, hcs⟩ := (mem_iff_lookup hn l cs).mp hmem
    rw [lookup_gpr] at hcs
    refine ⟨hcs, ?_⟩
    obtain ⟨vc, hvc, hfst⟩ := List.mem_map.mp ((mem_keys_gpr g l).mp hkey)
    intro hnil
    have hvcf : vc ∈ (cellsOf g).filter fun vc => decide (vc.1 = l) :=
      List.mem_filter.mpr ⟨hvc, by simp [hfst]⟩
    have hsnd := List.mem_map_of_mem Prod.snd hvcf
    rw [← hcs, hnil] at hsnd
    simp at hsnd
  · intro v rc hmem
    have hkey : v ∈ keysOf (get_puzzle_regions g) :=
      (mem_keys_gpr g v).mpr (List.mem_map_of_mem Prod.fst hmem)
    refine ⟨lookupCells (get_puzzle_regions g) v,
      (mem_iff_lookup hn v _).mpr ⟨hkey, rfl⟩, ?_⟩
    rw [lookup_gpr]
    exact List.mem_map_of_mem Prod.snd (List.mem_filter.mpr ⟨hmem, by simp⟩)
  · intro l1 cs1 l2 cs2 rc h1 h2 hc1 hc2
    obtain ⟨hk1, hcs1⟩ := (mem_iff_lookup hn l1 cs1).mp h1
    obtain ⟨hk2, hcs2⟩ := (mem_iff_lookup hn l2 cs2).mp h2
    rw [hcs1, lookup_gpr] at hc1
    rw [hcs2, lookup_gpr] at hc2
    obtain ⟨vc1, hvc1, hsnd1⟩ := List.mem_map.mp hc1
    obtain ⟨vc2, hvc2, hsnd2⟩ := List.mem_map.mp hc2
    obtain ⟨a1, b1⟩ := vc1
    obtain ⟨a2, b2⟩ := vc2
    have hf1 := List.mem_filter.mp hvc1
    have hf2 := List.mem_filter.mp hvc2
    have hl1 : a1 = l1 := by simpa using hf1.2
    have hl2 : a2 = l2 := by simpa using hf2.2
    have hb1 : b1 = rc := hsnd1
    have hb2 : b2 = rc := hsnd2
    have hm1 : (l1, rc) ∈ cellsOf g := by rw [← hl1, ← hb1]; exact hf1.1
    have hm2 : (l2, rc) ∈ cellsOf g := by rw [← hl2, ← hb2]; exact hf2.1
    have hll : l1 = l2 := cellsOf_label_unique hm1 hm2
    subst hll
    exact ⟨rfl, hcs1.trans hcs2.symm⟩

theorem getD_of_getLast {pre : List Nat} {prev : Nat}
    (h : pre.getLast? = some prev) : pre.getD (pre.length - 1) 0 = prev := by
  induction pre with
  | nil => simp at h
  | cons a tail ih =>
    cases tail with
    | nil =>
      simp at h
      simpa using h
    | cons b rest =>
      rw [List.getLast?_cons_cons] at h
      have := ih h
      simpa [List.length_cons] using this

theorem two_le_length_of_mem {α : Type} {a b : α} {l : List α}
    (ha : a ∈ l) (hb : b ∈ l) (hab : a ≠ b) : 2 ≤ l.length := by
  cases l with
  | nil => simp at ha
  | cons x t =>
    cases t with
    | nil =>
      simp at ha hb
      exact absurd (ha.trans hb.symm) hab
    | cons y u =>
      simp only [List.length_cons]
      omega

theorem row_length_of_square {p : Grid} (hsq : isSquareB p = true) {r : Nat}
    (hr : r < p.length) : (p.getD r []).length = p.length := by
  simp only [isSquareB, List.all_eq_true, decide_eq_true_eq] at hsq
  refine hsq _ ?_
  rw [List.getD_eq_getElem p [] hr]
  exact List.getElem_mem hr

theorem pairwiseDistinct_append_one {pre : List Nat} {c : Nat}
    (hd : pairwiseDistinct pre = true) (hc : c ∉ pre) :
    pairwiseDistinct (pre ++ [c]) = true := by
  rw [pairwiseDistinct_iff_nodup] at hd ⊢
  rw [List.nodup_append]
  refine ⟨hd, List.nodup_singleton c, ?_⟩
  intro a ha hmem
  rw [List.mem_singleton] at hmem
  subst hmem
  exact hc ha

theorem consecutiveFar_append_one : ∀ {pre : List Nat} {c : Nat},
    consecutiveFar pre = true →
    (pre.getLast? = none ∨ ∃ prev, pre.getLast? = some prev ∧ 1 < Nat.dist prev c) →
    consecutiveFar (pre ++ [c]) = true := by
  intro pre
  induction pre with
  | nil => intro c _ _; rfl
  | cons a tail ih =>
    intro c hfar hlast
    cases tail with
    | nil =>
      rcases hlast with hnone | ⟨prev, hsome, hdist⟩
      · simp at hnone
      · simp only [List.getLast?_singleton] at hsome
        have : prev = a := by injection hsome with hh; exact hh.symm
        subst this
        simp only [List.nil_append, List.cons_append, consecutiveFar,
          Bool.and_eq_true, decide_eq_true_eq]
        exact ⟨hdist, trivial⟩
    | cons b rest =>
      simp only [consecutiveFar, Bool.and_eq_true, decide_eq_true_eq] at hfar
      obtain ⟨hab, hfar2⟩ := hfar
      have hlast2 : (b :: rest).getLast? = none ∨
          ∃ prev, (b :: rest).getLast? = some prev ∧ 1 < Nat.dist prev c := by
        rcases hlast with hnone | ⟨prev, hsome, hdist⟩
        · simp at hnone
        · rw [List.getLast?_cons_cons] at hsome
          exact Or.inr ⟨prev, hsome, hdist⟩
      have := ih hfar2 hlast2
      simp only [List.cons_append, consecutiveFar, Bool.and_eq_true,
        decide_eq_true_eq] at this ⊢
      exact ⟨hab, this⟩

theorem canPlace_true_elim {p : Grid} {pre : List Nat} {c : Nat}
    (h : canPlace p pre c = true) :
    c ∉ pre ∧
      (pre.getLast? = none ∨ ∃ prev, pre.getLast? = some prev ∧ 1 < Nat.dist prev c) ∧
      regionHasQueen p pre pre.length c = false := by
  simp only [canPlace, Bool.and_eq_true, Bool.not_eq_true', decide_eq_true_eq] at h
  obtain ⟨⟨h1, h2⟩, h3⟩ := h
  refine ⟨h1, ?_, h3⟩
  cases hl : pre.getLast? with
  | none => exact Or.inl rfl
  | some prev =>
    rw [hl] at h2
    exact Or.inr ⟨prev, rfl, by simpa using h2⟩

theorem canPlace_of_isSolution (p : Grid) (hsq : isSquareB p = true)
    (pre : List Nat) (c : Nat) (suf : List Nat)
    (hlen : pre.length + (suf.length + 1) = p.length)
    (hS : isSolution p (pre ++ c :: suf) = true) :
    canPlace p pre c = true := by
  simp only [isSolution, get_puzzle_size, Bool.and_eq_true, decide_eq_true_eq,
    List.all_eq_true] at hS
  obtain ⟨⟨⟨⟨hlenf, hdomf⟩, hdistf⟩, hfarf⟩, hregf⟩ := hS
  have hnodup : (pre ++ c :: suf).Nodup := (pairwiseDistinct_iff_nodup _).mp hdistf
  have hfarI := (consecutiveFar_iff _).mp hfarf
  have hcn : c < p.length := hdomf c (by simp)
  have hanot : c ∉ pre := by
    intro hcpre
    obtain ⟨_, _, hdisj⟩ := List.nodup_append.mp hnodup
    exact hdisj hcpre (List.mem_cons_self c suf)
  have hadj : (match pre.getLast? with
      | none => true
      | some prev => decide (1 < Nat.dist prev c)) = true := by
    cases hl : pre.getLast? with
    | none => rfl
    | some prev =>
      have hpre_ne : pre ≠ [] := by
        intro hh
        rw [hh] at hl
        simp at hl
      have hj1 : 1 ≤ pre.length := by
        cases pre with
        | nil => exact absurd rfl hpre_ne
        | cons _ _ => simp [List.length_cons]
      have hidx : (pre ++ c :: suf).getD (pre.length - 1) 0 = prev := by
        rw [List.getD_eq_get? _ _ 0, List.get?_append (by omega),
          ← List.getD_eq_get? _ _ 0]
        exact getD_of_getLast hl
      have hidx2 : (pre ++ c :: suf).getD pre.length 0 = c := by
        rw [List.getD_eq_get? _ _ 0, List.get?_append_right (le_refl _),
          Nat.sub_self]
        rfl
      have hfar1 := hfarI (pre.length - 1)
        (by simp only [List.length_append, List.length_cons]; omega)
      rw [show pre.length - 1 + 1 = pre.length from by omega] at hfar1
      rw [hidx, hidx2] at hfar1
      simpa using hfar1
  have hregion : regionHasQueen p pre pre.length c = false := by
    by_contra hcon
    rw [Bool.not_eq_false] at hcon
    simp only [regionHasQueen, List.any_eq_true] at hcon
    obtain ⟨rc, hrcmem, hq⟩ := hcon
    have hqpre : pre.get? rc.1 = some rc.2 ∧ rc.1 < pre.length := by
      simp only [queenAt] at hq
      cases hget : pre.get? rc.1 with
      | none =>
        rw [hget] at hq
        exact absurd hq (by simp)
      | some col =>
        rw [hget] at hq
        have hcol : col = rc.2 := by simpa using hq
        subst hcol
        obtain ⟨hlt, _⟩ := List.get?_eq_some.mp hget
        exact ⟨rfl, hlt⟩
    have hjn : pre.length < p.length := by omega
    have hcell : (labelAt p pre.length c, (pre.length, c)) ∈ cellsOf p := by
      rw [mem_cellsOf]
      refine ⟨hjn, ?_, rfl⟩
      rw [row_length_of_square hsq hjn]
      exact hcn
    have hkey : labelAt p pre.length c ∈ keysOf (get_puzzle_regions p) :=
      (mem_keys_gpr p _).mpr (List.mem_map_of_mem Prod.fst hcell)
    have hentry : (labelAt p pre.length c,
        lookupCells (get_puzzle_regions p) (labelAt p pre.length c)) ∈
          get_puzzle_regions p :=
      (mem_iff_lookup (nodup_keys_gpr p) _ _).mpr ⟨hkey, rfl⟩
    have hone : regionExactlyOne (pre ++ c :: suf)
        (lookupCells (get_puzzle_regions p) (labelAt p pre.length c)) = true := by
      simp only [regionsConstraint, List.all_eq_true] at hregf
      exact hregf _ hentry
    simp only [regionExactlyOne, decide_eq_true_eq] at hone
    have hmem1 : rc ∈ (lookupCells (get_puzzle_regions p)
        (labelAt p pre.length c)).filter
        (fun rc => queenAt (pre ++ c :: suf) rc.1 rc.2) := by
      refine List.mem_filter.mpr ⟨hrcmem, ?_⟩
      have hget2 : (pre ++ c :: suf)[rc.1]? = some rc.2 := by
        rw [← List.get?_eq_getElem?, List.get?_append hqpre.2]
        exact hqpre.1
      simp [queenAt, hget2]
    have hmem2 : (pre.length, c) ∈ (lookupCells (get_puzzle_regions p)
        (labelAt p pre.length c)).filter
        (fun rc => queenAt (pre ++ c :: suf) rc.1 rc.2) := by
      refine List.mem_filter.mpr ⟨?_, ?_⟩
      · rw [lookup_gpr]
        exact List.mem_map_of_mem Prod.snd (List.mem_filter.mpr ⟨hcell, by simp⟩)
      · have hget3 : (pre ++ c :: suf)[pre.length]? = some c := by
          rw [← List.get?_eq_getElem?, List.get?_append_right (le_refl _), Nat.sub_self]
          rfl
        simp [queenAt, hget3]
    have hne : rc ≠ (pre.length, c) := by
      intro hh
      have := congrArg Prod.fst hh
      simp only at this
      omega
    have h2 := two_le_length_of_mem hmem1 hmem2 hne
    omega
  show (decide (c ∉ pre) &&
    (match pre.getLast? with
     | none => true
     | some prev => decide (1 < Nat.dist prev c)) &&
    !(regionHasQueen p pre pre.length c)) = true
  rw [Bool.and_eq_true, Bool.and_eq_true]
  refine ⟨⟨decide_eq_true hanot, hadj⟩, ?_⟩
  rw [hregion]
  rfl

theorem dfs_eq_filter (p : Grid) (hsq : isSquareB p = true) :
    ∀ (k : Nat) (pre : List Nat), pre.length + k = p.length →
      (∀ c ∈ pre, c < p.length) → pairwiseDistinct pre = true →
      consecutiveFar pre = true →
      dfs p p.length k pre =
        ((allAssignments p.length k).map fun suf => pre ++ suf).filter (isSolution p) := by
  intro k
  induction k with
  | zero =>
    intro pre hlen hdom hdist hfar
    have hS : isSolution p pre = regionsConstraint pre (get_puzzle_regions p) := by
      simp only [isSolution, get_puzzle_size]
      rw [decide_eq_true (show pre.length = p.length from by omega)]
      rw [show pre.all (fun c => decide (c < p.length)) = true from
        List.all_eq_true.mpr fun c hc => decide_eq_true (hdom c hc)]
      rw [hdist, hfar]
      simp
    have hdfs : dfs p p.length 0 pre =
        if regionsConstraint pre (get_puzzle_regions p) then [pre] else [] := rfl
    have hrhs : ((allAssignments p.length 0).map fun suf => pre ++ suf).filter
        (isSolution p) = if isSolution p pre then [pre] else [] := by
      show ([[]].map fun suf => pre ++ suf).filter (isSolution p) = _
      simp only [List.map_cons, List.map_nil, List.append_nil]
      cases hb : isSolution p pre
      · simp [List.filter_cons, hb]
      · simp [List.filter_cons, hb]
    rw [hdfs, hrhs, hS]
  | succ k ih =>
    intro pre hlen hdom hdist hfar
    have hdfs : dfs p p.length (k + 1) pre =
        appendMap (List.range p.length) fun c =>
          if canPlace p pre c then dfs p p.length k (pre ++ [c]) else [] := rfl
    have hall : allAssignments p.length (k + 1) =
        appendMap (List.range p.length) fun c =>
          (allAssignments p.length k).map fun rest => c :: rest := rfl
    rw [hdfs, hall, map_appendMap, filter_appendMap]
    apply appendMap_congr
    intro c hc
    rw [List.mem_range] at hc
    rw [List.map_map]
    have hcomp : ((fun suf => pre ++ suf) ∘ fun rest => c :: rest) =
        fun suf => (pre ++ [c]) ++ suf := by
      funext suf
      simp
    rw [hcomp]
    by_cases hcp : canPlace p pre c = true
    · rw [if_pos hcp]
      obtain ⟨hnin, hadj, _⟩ := canPlace_true_elim hcp
      refine ih (pre ++ [c]) ?_ ?_ ?_ ?_
      · simp only [List.length_append, List.length_singleton]
        omega
      · intro x hx
        rcases List.mem_append.mp hx with hx | hx
        · exact hdom x hx
        · rw [List.mem_singleton] at hx
          subst hx
          exact hc
      · exact pairwiseDistinct_append_one hdist hnin
      · exact consecutiveFar_append_one hfar hadj
    · rw [if_neg hcp]
      symm
      rw [List.filter_eq_nil]
      intro full hfull hsol
      obtain ⟨suf, hsuf, rfl⟩ := List.mem_map.mp hfull
      obtain ⟨hsuflen, _⟩ := (mem_allAssignments p.length k suf).mp hsuf
      have heq : (pre ++ [c]) ++ suf = pre ++ c :: suf := by simp
      rw [heq] at hsol
      exact hcp (canPlace_of_isSolution p hsq pre c suf (by omega) hsol)

theorem searchSolutions_eq_solutions (p : Grid) (hsq : isSquareB p = true) :
    searchSolutions p = solutions p := by
  have h := dfs_eq_filter p hsq p.length [] (by simp) (by simp) rfl rfl
  have hmap : (allAssignments p.length p.length).map (fun suf => [] ++ suf) =
      allAssignments p.length p.length := by
    simp
  show dfs p p.length p.length [] = solutions p
  rw [h, hmap]
  rfl

/-- Claim C6: on a square board with at least one solution, the spec's
depth-first search over rows — candidate columns in strictly increasing order,
always taking the smallest unused column passing the adjacency, column and
region feasibility checks — produces exactly the engine's solution list, and
the first solution returned by solve is the first assignment that search
finds. -/
theorem first_solution_matches_dfs (p : Grid) (hsq : isSquareB p = true)
    (hne : solutions p ≠ []) :
    searchSolutions p = solutions p ∧
    ∃ qc, (searchSolutions p).head? = some qc ∧
      (solve_core p).queens = some (indexPairs 0 qc) := by
  have he := searchSolutions_eq_solutions p hsq
  refine ⟨he, ?_⟩
  cases hs : solutions p with
  | nil => exact absurd hs hne
  | cons a t =>
    refine ⟨a, ?_, ?_⟩
    · rw [he, hs]
      rfl
    · simp [solve_core, hs]

/-- Claim C6 witness: the 1 by 1 board. -/
theorem first_solution_matches_dfs_witness :
    isSquareB [["c"]] = true ∧ solutions [["c"]] ≠ [] ∧
    searchSolutions [["c"]] = solutions [["c"]] :=
  ⟨by decide, by decide,
    (first_solution_matches_dfs [["c"]] (by decide) (by decide)).1⟩
